import Mathlib

/-!
Shallow embedding of the Destination JSON transcoding scheme and of the
status-to-error mapping of the go-sapcp-destination-client library
(types.go together with the codec and client methods of client.go), with
proofs about the codec.

A Go map from string to string is represented canonically as an
association list strictly sorted by key; this canonical order is exactly
the key-sorted JSON object that json.Marshal emits for a Go map.  A nil
Go map is represented as none, a non-nil map as some of its canonical
list.
-/

/-- listCharLt is the lexicographic order on lists of characters, compared
by code point; it induces the canonical order on wire object keys. -/
def listCharLt : List Char → List Char → Bool
  | [], [] => false
  | [], _ :: _ => true
  | _ :: _, [] => false
  | a :: as, b :: bs =>
    decide (a.toNat < b.toNat) || (decide (a.toNat = b.toNat) && listCharLt as bs)

/-- strLt compares two strings lexicographically by their characters. -/
def strLt (a b : String) : Bool := listCharLt a.data b.data

/-- Smap is the model of a Go map from string to string: an association
list kept strictly sorted by key. -/
abbrev Smap := List (String × String)

/-- Smap.get models a Go map lookup. -/
def Smap.get : Smap → String → Option String
  | [], _ => none
  | (k0, v0) :: rest, k => if k = k0 then some v0 else Smap.get rest k

/-- Smap.insert models a Go map store m[k] = v, keeping the canonical
order. -/
def Smap.insert : Smap → String → String → Smap
  | [], k, v => [(k, v)]
  | (k0, v0) :: rest, k, v =>
    if strLt k k0 then (k, v) :: (k0, v0) :: rest
    else if k = k0 then (k, v) :: rest
    else (k0, v0) :: Smap.insert rest k v

/-- Smap.WF states that an association list is strictly sorted by key,
i.e. that it is the canonical representation of a Go map. -/
def Smap.WF (l : Smap) : Prop := l.Pairwise (fun p q => strLt p.1 q.1 = true)

/-- JVal models a parsed JSON value. -/
inductive JVal where
  | str (s : String)
  | num (n : Int)
  | bool (b : Bool)
  | null
  | arr (elems : List JVal)
  | obj (fields : List (String × JVal))

/-- jlookup finds the value carried by a member of a JSON object. -/
def jlookup : List (String × JVal) → String → Option JVal
  | [], _ => none
  | (k0, v0) :: rest, k => if k0 = k then some v0 else jlookup rest k

/-- DestinationType mirrors types.go, where a destination type is a string
type. -/
abbrev DestinationType := String

/-- HTTPDestination mirrors the constant of types.go. -/
def HTTPDestination : DestinationType := "HTTP"

/-- RFCDestination mirrors the constant of types.go. -/
def RFCDestination : DestinationType := "RFC"

/-- MailDestination mirrors the constant of types.go. -/
def MailDestination : DestinationType := "MAIL"

/-- LDAPDestination mirrors the constant of types.go. -/
def LDAPDestination : DestinationType := "LDAP"

/-- ErrorMessage mirrors the struct of types.go: the remote error message
from the wire, plus the locally injected HTTP status code.  The Go field
is itself named ErrorMessage, which Lean cannot repeat inside the
namespace, so it is written errorMessage here. -/
structure ErrorMessage where
  errorMessage : String
  statusCode : Nat
  deriving DecidableEq

/-- Destination mirrors the struct of types.go.  The Go field Type is
written type here because Type is reserved in Lean; Properties is an
optional map, none standing for a nil Go map. -/
structure Destination where
  Name : String
  type : DestinationType
  Properties : Option Smap
  deriving DecidableEq

/-- AffectedRecords mirrors the struct of types.go. -/
structure AffectedRecords where
  count : Int
  deriving DecidableEq

/-- Destination.MarshalJSON models the encoder of client.go: starting from
the receiver's Properties map (a fresh empty map when it is nil), it
stores the Name field under the key "Name" and the type string under the
key "Type", and hands the resulting flat map to json.Marshal, whose
output is the canonical key-sorted object represented here by the map
itself. -/
def Destination.MarshalJSON (d : Destination) : Smap :=
  ((d.Properties.getD []).insert "Name" d.Name).insert "Type" d.type

/-- Destination.propertiesAfterMarshalJSON gives the Properties map the
caller sees once MarshalJSON has returned.  The value receiver copies the
struct, but a Go map is a reference: when Properties is non-nil the two
stores inside MarshalJSON hit the caller's map, while when it is nil the
nil check allocates a fresh map the caller never sees. -/
def Destination.propertiesAfterMarshalJSON (d : Destination) : Option Smap :=
  match d.Properties with
  | none => none
  | some m => some ((m.insert "Name" d.Name).insert "Type" d.type)

/-- parseDestinationType models the inner switch of UnmarshalJSON in
client.go, mapping a wire Type string into the enumeration and any other
string to the empty type. -/
def parseDestinationType (v : String) : DestinationType :=
  if v = "HTTP" then HTTPDestination
  else if v = "RFC" then RFCDestination
  else if v = "MAIL" then MailDestination
  else if v = "LDAP" then LDAPDestination
  else ""

/-- unmarshalLoop models the range loop of UnmarshalJSON in client.go over
the parsed wire map: a "Name" entry sets the Name field, a "Type" entry
sets the type field through the switch, and every other entry is stored
into Properties.  The loop is taken here in canonical key order; the keys
of a map are distinct and the three branches update disjoint parts of the
result, so the unspecified iteration order of a Go map range cannot
change the outcome. -/
def unmarshalLoop : Destination → Smap → Destination
  | d, [] => d
  | d, (k, v) :: rest =>
    if k = "Name" then unmarshalLoop { d with Name := v } rest
    else if k = "Type" then unmarshalLoop { d with type := parseDestinationType v } rest
    else unmarshalLoop { d with Properties := some ((d.Properties.getD []).insert k v) } rest

/-- goFields models encoding/json unmarshalling of the members of a JSON
object into a Go map from string to string: a string value is stored as
is, a null value stores the key with the zero string, and any other value
is a type error. -/
def goFields : List (String × JVal) → Smap → Except String Smap
  | [], acc => Except.ok acc
  | (k, v) :: rest, acc =>
    match v with
    | JVal.str s => goFields rest (acc.insert k s)
    | JVal.null => goFields rest (acc.insert k "")
    | _ => Except.error "json: cannot unmarshal value into Go value of type string"

/-- goUnmarshalStringMap models json.Unmarshal into a Go map from string
to string: an object is unmarshalled member by member, a top level null
leaves the map empty, and any other value is a type error. -/
def goUnmarshalStringMap : JVal → Except String Smap
  | JVal.obj fields => goFields fields []
  | JVal.null => Except.ok []
  | _ => Except.error "json: cannot unmarshal value into Go value of type map"

/-- Destination.UnmarshalJSON models the decoder of client.go: parse the
payload as a flat string map, fail on a parse error, and otherwise reset
Properties to a fresh empty map and run the loop over the parsed
entries. -/
def Destination.UnmarshalJSON (d : Destination) (payload : JVal) : Except String Destination :=
  match goUnmarshalStringMap payload with
  | Except.error e => Except.error e
  | Except.ok w => Except.ok (unmarshalLoop { d with Properties := some [] } w)

/-- decodeWire is the decoder run on the zero Destination at the level of
an already parsed wire map, as a response body is decoded into a fresh
struct; the empty Properties map reflects the make call that precedes the
loop. -/
def decodeWire (w : Smap) : Destination :=
  unmarshalLoop { Name := "", type := "", Properties := some [] } w

/-- ErrorMessage.StatusCode mirrors the accessor of client.go. -/
def ErrorMessage.StatusCode (e : ErrorMessage) : Nat := e.statusCode

/-- ErrorMessage.Error mirrors the Error method of client.go, which makes
ErrorMessage a Go error exposing the remote message. -/
def ErrorMessage.Error (e : ErrorMessage) : String := e.errorMessage

/-- unmarshalErrorMessage models json.Unmarshal into the ErrorMessage
struct: only the exported field tagged ErrorMessage is populated; a
missing member or a null leaves the previous value, a non-string value
under that key is a type error, unknown members are skipped, and a non
object payload other than null is a type error. -/
def unmarshalErrorMessage (payload : JVal) (e : ErrorMessage) : Except String ErrorMessage :=
  match payload with
  | JVal.null => Except.ok e
  | JVal.obj fields =>
    match jlookup fields "ErrorMessage" with
    | some (JVal.str s) => Except.ok { e with errorMessage := s }
    | some JVal.null => Except.ok e
    | some _ => Except.error "json: cannot unmarshal value into Go value of type string"
    | none => Except.ok e
  | _ => Except.error "json: cannot unmarshal value into Go value of type ErrorMessage"

/-- unmarshalAffectedRecords models json.Unmarshal into the
AffectedRecords struct, whose only field is tagged count. -/
def unmarshalAffectedRecords (payload : JVal) (a : AffectedRecords) : Except String AffectedRecords :=
  match payload with
  | JVal.null => Except.ok a
  | JVal.obj fields =>
    match jlookup fields "count" with
    | some (JVal.num n) => Except.ok { count := n }
    | some JVal.null => Except.ok a
    | some _ => Except.error "json: cannot unmarshal value into Go value of type int"
    | none => Except.ok a
  | _ => Except.error "json: cannot unmarshal value into Go value of type AffectedRecords"

/-- Response models a completed HTTP exchange as seen through resty: the
transport status code and the parsed JSON body. -/
structure Response where
  statusCode : Nat
  body : JVal

/-- RestOutcome models the pair a resty request returns: either the
transport failed before any response was obtained, or a response
arrived. -/
inductive RestOutcome where
  | transportFailure (msg : String)
  | completed (r : Response)

/-- UpdateOutcome models the value and error pair returned by the update
method: the transport error surfaced verbatim, or the remote error with
the injected status, or the successful count. -/
inductive UpdateOutcome where
  | transportFailed (msg : String)
  | remoteFailed (retval : AffectedRecords) (e : ErrorMessage)
  | succeeded (retval : AffectedRecords)
  deriving DecidableEq

/-- UpdateSubaccountDestination models the update method of client.go on a
given exchange outcome.  Resty unmarshals the body into the SetResult
target only for a 2xx status and into the SetError target only for a
status above 399; an unmarshalling failure surfaces through the error
return of the call itself.  The method then returns the error response,
with the transport status code injected, whenever the status is not
200. -/
def UpdateSubaccountDestination (o : RestOutcome) : UpdateOutcome :=
  match o with
  | RestOutcome.transportFailure m => UpdateOutcome.transportFailed m
  | RestOutcome.completed r =>
    match (if 199 < r.statusCode ∧ r.statusCode < 300
           then unmarshalAffectedRecords r.body { count := 0 }
           else Except.ok { count := 0 } : Except String AffectedRecords) with
    | Except.error m => UpdateOutcome.transportFailed m
    | Except.ok retval =>
      match (if 399 < r.statusCode
             then unmarshalErrorMessage r.body { errorMessage := "", statusCode := 0 }
             else Except.ok { errorMessage := "", statusCode := 0 } : Except String ErrorMessage) with
      | Except.error m => UpdateOutcome.transportFailed m
      | Except.ok errResponse =>
        if r.statusCode ≠ 200 then
          UpdateOutcome.remoteFailed retval { errResponse with statusCode := r.statusCode }
        else UpdateOutcome.succeeded retval

/-- JVal.isStrOrNull holds of a JSON string or a JSON null. -/
def JVal.isStrOrNull : JVal → Bool
  | JVal.str _ => true
  | JVal.null => true
  | _ => false

/-- JVal.isFlatStringObj holds of a JSON object all of whose member values
are strings. -/
def JVal.isFlatStringObj : JVal → Bool
  | JVal.obj fields => fields.all (fun p => match p.2 with | JVal.str _ => true | _ => false)
  | _ => false

/-- decodeAccepted characterises the payloads the decoder accepts: a JSON
object whose member values are strings or nulls, or a bare null. -/
def decodeAccepted : JVal → Bool
  | JVal.null => true
  | JVal.obj fields => fields.all (fun p => p.2.isStrOrNull)
  | _ => false

/-- exceptOk tells whether an Except value carries a result. -/
def exceptOk {ε α : Type} : Except ε α → Bool
  | Except.ok _ => true
  | Except.error _ => false

/-- charToNatInj recovers equality of characters from equality of code
points. -/
theorem charToNatInj {a b : Char} (h : a.toNat = b.toNat) : a = b :=
  Char.eq_of_val_eq (UInt32.ext_iff.mpr h)

/-- strDataInj recovers equality of strings from equality of their
character lists. -/
theorem strDataInj {a b : String} (h : a.data = b.data) : a = b := by
  cases a
  cases b
  exact congrArg String.mk h

/-- listCharLt_irrefl states that the character list order is
irreflexive. -/
theorem listCharLt_irrefl (l : List Char) : listCharLt l l = false := by
  induction l with
  | nil => rfl
  | cons a as ih => simp [listCharLt, ih]

/-- listCharLt_trans states that the character list order is
transitive. -/
theorem listCharLt_trans (l1 : List Char) : ∀ l2 l3, listCharLt l1 l2 = true →
    listCharLt l2 l3 = true → listCharLt l1 l3 = true := by
  induction l1 with
  | nil =>
    intro l2 l3 h1 h2
    cases l2 with
    | nil => simp [listCharLt] at h1
    | cons b bs =>
      cases l3 with
      | nil => simp [listCharLt] at h2
      | cons c cs => simp [listCharLt]
  | cons a as ih =>
    intro l2 l3 h1 h2
    cases l2 with
    | nil => simp [listCharLt] at h1
    | cons b bs =>
      cases l3 with
      | nil => simp [listCharLt] at h2
      | cons c cs =>
        simp only [listCharLt, Bool.or_eq_true, Bool.and_eq_true, decide_eq_true_eq] at h1 h2 ⊢
        rcases h1 with h1 | ⟨hab, r1⟩
        · rcases h2 with h2 | ⟨hbc, r2⟩
          · exact Or.inl (Nat.lt_trans h1 h2)
          · exact Or.inl (by omega)
        · rcases h2 with h2 | ⟨hbc, r2⟩
          · exact Or.inl (by omega)
          · exact Or.inr ⟨by omega, ih bs cs r1 r2⟩

/-- listCharLt_conn states that two character lists neither of which is
below the other are equal. -/
theorem listCharLt_conn (l1 : List Char) : ∀ l2, listCharLt l1 l2 = false →
    listCharLt l2 l1 = false → l1 = l2 := by
  induction l1 with
  | nil =>
    intro l2 h1 _
    cases l2 with
    | nil => rfl
    | cons b bs => simp [listCharLt] at h1
  | cons a as ih =>
    intro l2 h1 h2
    cases l2 with
    | nil => simp [listCharLt] at h2
    | cons b bs =>
      by_cases hab : a.toNat < b.toNat
      · simp [listCharLt, hab] at h1
      · by_cases hba : b.toNat < a.toNat
        · simp [listCharLt, hba] at h2
        · have hEq : a.toNat = b.toNat := by omega
          have ha : a = b := charToNatInj hEq
          subst ha
          simp [listCharLt] at h1 h2
          rw [ih bs h1 h2]

/-- strLt_irrefl states irreflexivity of the string order. -/
theorem strLt_irrefl (a : String) : strLt a a = false := listCharLt_irrefl a.data

/-- strLt_trans states transitivity of the string order. -/
theorem strLt_trans {a b c : String} (h1 : strLt a b = true) (h2 : strLt b c = true) :
    strLt a c = true := listCharLt_trans a.data b.data c.data h1 h2

/-- strLt_total states that two strings neither of which is below the
other are equal. -/
theorem strLt_total {a b : String} (h1 : strLt a b = false) (h2 : strLt b a = false) : a = b :=
  strDataInj (listCharLt_conn a.data b.data h1 h2)

/-- strLt_ne states that a string strictly below another differs from
it. -/
theorem strLt_ne {a b : String} (h : strLt a b = true) : a ≠ b := by
  intro he
  subst he
  rw [strLt_irrefl] at h
  exact Bool.false_ne_true h

/-- strLt_flip turns a failed comparison of distinct strings around. -/
theorem strLt_flip {a b : String} (h : strLt a b = false) (hne : a ≠ b) : strLt b a = true := by
  cases hba : strLt b a with
  | false => exact absurd (strLt_total h hba) hne
  | true => rfl


/-- Smap.insert_cons_lt unfolds a store whose key precedes the head. -/
theorem Smap.insert_cons_lt {k k0 : String} (v v0 : String) (rest : Smap)
    (h : strLt k k0 = true) :
    Smap.insert ((k0, v0) :: rest) k v = (k, v) :: (k0, v0) :: rest := by
  simp [Smap.insert, h]

/-- Smap.insert_cons_self unfolds a store at the head key. -/
theorem Smap.insert_cons_self (k : String) (v v0 : String) (rest : Smap) :
    Smap.insert ((k, v0) :: rest) k v = (k, v) :: rest := by
  simp [Smap.insert, strLt_irrefl]

/-- Smap.insert_cons_gt unfolds a store whose key follows the head. -/
theorem Smap.insert_cons_gt {k k0 : String} (v v0 : String) (rest : Smap)
    (h1 : strLt k k0 = false) (h2 : k ≠ k0) :
    Smap.insert ((k0, v0) :: rest) k v = (k0, v0) :: Smap.insert rest k v := by
  simp [Smap.insert, h1, h2]

/-- Smap.mem_insert bounds the members of a map after a store. -/
theorem Smap.mem_insert {l : Smap} {k v : String} {p : String × String}
    (hp : p ∈ Smap.insert l k v) : p = (k, v) ∨ p ∈ l := by
  induction l with
  | nil => simpa [Smap.insert] using hp
  | cons q rest ih =>
    obtain ⟨k0, v0⟩ := q
    cases hlt : strLt k k0 with
    | true =>
      rw [Smap.insert_cons_lt v v0 rest hlt] at hp
      rcases List.mem_cons.mp hp with h | h
      · exact Or.inl h
      · exact Or.inr h
    | false =>
      by_cases heq : k = k0
      · subst heq
        rw [Smap.insert_cons_self k v v0 rest] at hp
        rcases List.mem_cons.mp hp with h | h
        · exact Or.inl h
        · exact Or.inr (List.mem_cons_of_mem _ h)
      · rw [Smap.insert_cons_gt v v0 rest hlt heq] at hp
        rcases List.mem_cons.mp hp with h | h
        · exact Or.inr (by simp [h])
        · rcases ih h with h' | h'
          · exact Or.inl h'
          · exact Or.inr (List.mem_cons_of_mem _ h')

/-- Smap.WF_insert states that a store keeps the canonical order. -/
theorem Smap.WF_insert {l : Smap} (h : l.WF) (k v : String) : (Smap.insert l k v).WF := by
  induction l with
  | nil => simp [Smap.insert, Smap.WF]
  | cons q rest ih =>
    obtain ⟨k0, v0⟩ := q
    rw [Smap.WF, List.pairwise_cons] at h
    obtain ⟨hall, hrest⟩ := h
    cases hlt : strLt k k0 with
    | true =>
      rw [Smap.insert_cons_lt v v0 rest hlt, Smap.WF, List.pairwise_cons]
      refine ⟨?_, List.pairwise_cons.mpr ⟨hall, hrest⟩⟩
      intro q hq
      rcases List.mem_cons.mp hq with h | h
      · simpa [h] using hlt
      · exact strLt_trans hlt (hall q h)
    | false =>
      by_cases heq : k = k0
      · subst heq
        rw [Smap.insert_cons_self k v v0 rest, Smap.WF, List.pairwise_cons]
        exact ⟨hall, hrest⟩
      · rw [Smap.insert_cons_gt v v0 rest hlt heq, Smap.WF, List.pairwise_cons]
        refine ⟨?_, ih hrest⟩
        intro q hq
        rcases Smap.mem_insert hq with h | h
        · rw [h]
          exact strLt_flip hlt heq
        · exact hall q h

/-- Smap.get_insert_self states that a lookup after a store at the same
key finds the stored value. -/
theorem Smap.get_insert_self (l : Smap) (k v : String) :
    Smap.get (Smap.insert l k v) k = some v := by
  induction l with
  | nil => simp [Smap.insert, Smap.get]
  | cons q rest ih =>
    obtain ⟨k0, v0⟩ := q
    cases hlt : strLt k k0 with
    | true =>
      rw [Smap.insert_cons_lt v v0 rest hlt, Smap.get, if_pos rfl]
    | false =>
      by_cases heq : k = k0
      · subst heq
        rw [Smap.insert_cons_self k v v0 rest, Smap.get, if_pos rfl]
      · rw [Smap.insert_cons_gt v v0 rest hlt heq, Smap.get, if_neg heq]
        exact ih

/-- Smap.get_insert_ne states that a store leaves lookups at other keys
unchanged. -/
theorem Smap.get_insert_ne (l : Smap) {k k0 : String} (v : String) (h : k0 ≠ k) :
    Smap.get (Smap.insert l k v) k0 = Smap.get l k0 := by
  induction l with
  | nil => simp [Smap.insert, Smap.get, h]
  | cons q rest ih =>
    obtain ⟨k1, v1⟩ := q
    cases hlt : strLt k k1 with
    | true =>
      rw [Smap.insert_cons_lt v v1 rest hlt, Smap.get, if_neg h]
    | false =>
      by_cases heq : k = k1
      · subst heq
        rw [Smap.insert_cons_self k v v1 rest, Smap.get, if_neg h, Smap.get, if_neg h]
      · rw [Smap.insert_cons_gt v v1 rest hlt heq, Smap.get, Smap.get]
        by_cases hk01 : k0 = k1
        · rw [if_pos hk01, if_pos hk01]
        · rw [if_neg hk01, if_neg hk01]
          exact ih

/-- Smap.get_eq_none states that a lookup at a key no entry carries comes
back empty. -/
theorem Smap.get_eq_none {l : Smap} {k : String} (h : ∀ p ∈ l, p.1 ≠ k) :
    Smap.get l k = none := by
  induction l with
  | nil => rfl
  | cons q rest ih =>
    obtain ⟨k0, v0⟩ := q
    have hk0 : k0 ≠ k := h (k0, v0) (by simp)
    have hne : k ≠ k0 := fun hh => hk0 hh.symm
    rw [Smap.get, if_neg hne]
    exact ih fun p hp => h p (List.mem_cons_of_mem _ hp)

/-- Smap.WF_keys_ne states that the keys of a canonical map are pairwise
distinct. -/
theorem Smap.WF_keys_ne {l : Smap} (h : l.WF) : l.Pairwise (fun p q => p.1 ≠ q.1) :=
  h.imp fun hpq => strLt_ne hpq

/-- Smap.ext_of_wf states that two canonical maps agreeing on every lookup
are equal. -/
theorem Smap.ext_of_wf {l1 : Smap} : ∀ {l2 : Smap}, l1.WF → l2.WF →
    (∀ k, Smap.get l1 k = Smap.get l2 k) → l1 = l2 := by
  induction l1 with
  | nil =>
    intro l2 _ _ h
    cases l2 with
    | nil => rfl
    | cons q rest =>
      obtain ⟨k0, v0⟩ := q
      have := h k0
      rw [Smap.get, Smap.get, if_pos rfl] at this
      exact absurd this (by simp)
  | cons p t1 ih =>
    intro l2 h1 h2 h
    obtain ⟨k1, v1⟩ := p
    cases l2 with
    | nil =>
      have := h k1
      rw [Smap.get, Smap.get, if_pos rfl] at this
      exact absurd this (by simp)
    | cons q t2 =>
      obtain ⟨k2, v2⟩ := q
      rw [Smap.WF, List.pairwise_cons] at h1 h2
      obtain ⟨hall1, ht1⟩ := h1
      obtain ⟨hall2, ht2⟩ := h2
      have hk : k1 = k2 := by
        by_contra hk
        cases hlt : strLt k1 k2 with
        | true =>
          have hnone : Smap.get ((k2, v2) :: t2) k1 = none := by
            refine Smap.get_eq_none ?_
            intro p hp
            rcases List.mem_cons.mp hp with hh | hh
            · rw [hh]
              exact fun he => (strLt_ne hlt) he.symm
            · exact fun he => (strLt_ne (strLt_trans hlt (hall2 p hh))) he.symm
          have hcontra := h k1
          rw [hnone, Smap.get, if_pos rfl] at hcontra
          exact absurd hcontra (by simp)
        | false =>
          have hlt2 : strLt k2 k1 = true := strLt_flip hlt hk
          have hnone : Smap.get ((k1, v1) :: t1) k2 = none := by
            refine Smap.get_eq_none ?_
            intro p hp
            rcases List.mem_cons.mp hp with hh | hh
            · rw [hh]
              exact fun he => (strLt_ne hlt2) he.symm
            · exact fun he => (strLt_ne (strLt_trans hlt2 (hall1 p hh))) he.symm
          have hcontra := h k2
          rw [hnone, Smap.get, if_pos rfl] at hcontra
          exact absurd hcontra.symm (by simp)
      subst hk
      have hv : v1 = v2 := by
        have := h k1
        rw [Smap.get, Smap.get, if_pos rfl, if_pos rfl] at this
        exact Option.some.inj this
      subst hv
      have htail : ∀ s, Smap.get t1 s = Smap.get t2 s := by
        intro s
        by_cases hs : s = k1
        · subst hs
          have e1 : Smap.get t1 s = none :=
            Smap.get_eq_none fun p hp => fun he => (strLt_ne (hall1 p hp)) he.symm
          have e2 : Smap.get t2 s = none :=
            Smap.get_eq_none fun p hp => fun he => (strLt_ne (hall2 p hp)) he.symm
          rw [e1, e2]
        · have := h s
          rw [Smap.get, Smap.get, if_neg hs, if_neg hs] at this
          exact this
      rw [ih ht1 ht2 htail]

/-- jlookup_eq_none states that a JSON object without a given key has no
member under it. -/
theorem jlookup_eq_none {fs : List (String × JVal)} {k : String}
    (h : ∀ p ∈ fs, p.1 ≠ k) : jlookup fs k = none := by
  induction fs with
  | nil => rfl
  | cons q rest ih =>
    obtain ⟨k0, v0⟩ := q
    have hk0 : k0 ≠ k := h (k0, v0) (by simp)
    rw [jlookup, if_neg hk0]
    exact ih fun p hp => h p (List.mem_cons_of_mem _ hp)

/-- unmarshalLoop_cons_name unfolds the decode loop on a "Name" entry. -/
theorem unmarshalLoop_cons_name (d : Destination) (v : String) (rest : Smap) :
    unmarshalLoop d (("Name", v) :: rest) = unmarshalLoop { d with Name := v } rest := by
  simp [unmarshalLoop]

/-- unmarshalLoop_cons_type unfolds the decode loop on a "Type" entry. -/
theorem unmarshalLoop_cons_type (d : Destination) (v : String) (rest : Smap) :
    unmarshalLoop d (("Type", v) :: rest) =
      unmarshalLoop { d with type := parseDestinationType v } rest := by
  simp [unmarshalLoop]

/-- unmarshalLoop_cons_other unfolds the decode loop on an unreserved
entry. -/
theorem unmarshalLoop_cons_other (d : Destination) {k : String} (v : String) (rest : Smap)
    (h1 : k ≠ "Name") (h2 : k ≠ "Type") :
    unmarshalLoop d ((k, v) :: rest) =
      unmarshalLoop { d with Properties := some (Smap.insert (d.Properties.getD []) k v) }
        rest := by
  simp [unmarshalLoop, h1, h2]

/-- unmarshalLoop_Name characterises the Name field produced by the decode
loop: the value of the "Name" entry when the wire map has one, the
receiver's previous Name otherwise. -/
theorem unmarshalLoop_Name (d : Destination) : ∀ w : Smap,
    w.Pairwise (fun p q => p.1 ≠ q.1) →
    (unmarshalLoop d w).Name = (Smap.get w "Name").getD d.Name := by
  intro w
  induction w generalizing d with
  | nil => intro _; rfl
  | cons p rest ih =>
    intro hw
    obtain ⟨k, v⟩ := p
    rw [List.pairwise_cons] at hw
    obtain ⟨hhead, htail⟩ := hw
    by_cases hk : k = "Name"
    · subst hk
      rw [unmarshalLoop_cons_name, ih _ htail]
      have hrest : Smap.get rest "Name" = none :=
        Smap.get_eq_none fun p hp => fun he => (hhead p hp) he.symm
      rw [hrest, Smap.get, if_pos rfl]
      rfl
    · by_cases hk2 : k = "Type"
      · subst hk2
        rw [unmarshalLoop_cons_type, ih _ htail, Smap.get, if_neg (fun he => hk he.symm)]
      · rw [unmarshalLoop_cons_other d v rest hk hk2, ih _ htail, Smap.get,
          if_neg (fun he => hk he.symm)]

/-- unmarshalLoop_type characterises the type field produced by the decode
loop: the switch applied to the "Type" entry when the wire map has one,
the receiver's previous type otherwise. -/
theorem unmarshalLoop_type (d : Destination) : ∀ w : Smap,
    w.Pairwise (fun p q => p.1 ≠ q.1) →
    (unmarshalLoop d w).type =
      ((Smap.get w "Type").map parseDestinationType).getD d.type := by
  intro w
  induction w generalizing d with
  | nil => intro _; rfl
  | cons p rest ih =>
    intro hw
    obtain ⟨k, v⟩ := p
    rw [List.pairwise_cons] at hw
    obtain ⟨hhead, htail⟩ := hw
    by_cases hk : k = "Name"
    · subst hk
      rw [unmarshalLoop_cons_name, ih _ htail, Smap.get,
        if_neg (by decide : ¬ ("Type" : String) = "Name")]
    · by_cases hk2 : k = "Type"
      · subst hk2
        rw [unmarshalLoop_cons_type, ih _ htail]
        have hrest : Smap.get rest "Type" = none :=
          Smap.get_eq_none fun p hp => fun he => (hhead p hp) he.symm
        rw [hrest, Smap.get, if_pos rfl]
        rfl
      · rw [unmarshalLoop_cons_other d v rest hk hk2, ih _ htail, Smap.get,
          if_neg (fun he => hk2 he.symm)]

/-- unmarshalLoop_props_get characterises the Properties entry the decode
loop leaves under an unreserved key: the wire entry when there is one,
the receiver's previous entry otherwise. -/
theorem unmarshalLoop_props_get (d : Destination) : ∀ w : Smap,
    w.Pairwise (fun p q => p.1 ≠ q.1) → ∀ s : String, s ≠ "Name" → s ≠ "Type" →
    Smap.get ((unmarshalLoop d w).Properties.getD []) s =
      (match Smap.get w s with
        | some v => some v
        | none => Smap.get (d.Properties.getD []) s) := by
  intro w
  induction w generalizing d with
  | nil =>
    intro _ s _ _
    rfl
  | cons p rest ih =>
    intro hw s hs1 hs2
    obtain ⟨k, v⟩ := p
    rw [List.pairwise_cons] at hw
    obtain ⟨hhead, htail⟩ := hw
    by_cases hk : k = "Name"
    · subst hk
      rw [unmarshalLoop_cons_name, ih _ htail s hs1 hs2, Smap.get, if_neg hs1]
    · by_cases hk2 : k = "Type"
      · subst hk2
        rw [unmarshalLoop_cons_type, ih _ htail s hs1 hs2, Smap.get, if_neg hs2]
      · rw [unmarshalLoop_cons_other d v rest hk hk2, ih _ htail s hs1 hs2]
        by_cases hsk : s = k
        · subst hsk
          have hrest : Smap.get rest s = none :=
            Smap.get_eq_none fun p hp => fun he => (hhead p hp) he.symm
          rw [hrest, Smap.get, if_pos rfl]
          simp only [Option.getD]
          exact Smap.get_insert_self _ s v
        · rw [Smap.get, if_neg hsk]
          cases hg : Smap.get rest s with
          | some v0 => rfl
          | none =>
            simp only [Option.getD]
            exact Smap.get_insert_ne _ v hsk

/-- unmarshalLoop_props_reserved states that the decode loop never stores
an entry under a reserved key. -/
theorem unmarshalLoop_props_reserved (d : Destination) : ∀ (w : Smap) (s : String),
    s = "Name" ∨ s = "Type" →
    Smap.get ((unmarshalLoop d w).Properties.getD []) s =
      Smap.get (d.Properties.getD []) s := by
  intro w
  induction w generalizing d with
  | nil => intro s _; rfl
  | cons p rest ih =>
    intro s hs
    obtain ⟨k, v⟩ := p
    by_cases hk : k = "Name"
    · subst hk
      rw [unmarshalLoop_cons_name]
      exact ih _ s hs
    · by_cases hk2 : k = "Type"
      · subst hk2
        rw [unmarshalLoop_cons_type]
        exact ih _ s hs
      · rw [unmarshalLoop_cons_other d v rest hk hk2, ih _ s hs]
        simp only [Option.getD]
        refine Smap.get_insert_ne _ v ?_
        rcases hs with hs | hs <;> subst hs
        · exact fun he => hk he.symm
        · exact fun he => hk2 he.symm

/-- unmarshalLoop_props_WF states that the decode loop keeps Properties in
canonical order. -/
theorem unmarshalLoop_props_WF (d : Destination) : ∀ w : Smap,
    (d.Properties.getD []).WF → ((unmarshalLoop d w).Properties.getD []).WF := by
  intro w
  induction w generalizing d with
  | nil => intro h; exact h
  | cons p rest ih =>
    intro h
    obtain ⟨k, v⟩ := p
    by_cases hk : k = "Name"
    · subst hk
      rw [unmarshalLoop_cons_name]
      exact ih _ h
    · by_cases hk2 : k = "Type"
      · subst hk2
        rw [unmarshalLoop_cons_type]
        exact ih _ h
      · rw [unmarshalLoop_cons_other d v rest hk hk2]
        exact ih _ (Smap.WF_insert h k v)

/-- unmarshalLoop_props_isSome states that the decode loop never turns an
initialised Properties map back into a nil one. -/
theorem unmarshalLoop_props_isSome (d : Destination) : ∀ w : Smap,
    d.Properties.isSome = true → (unmarshalLoop d w).Properties.isSome = true := by
  intro w
  induction w generalizing d with
  | nil => intro h; exact h
  | cons p rest ih =>
    intro h
    obtain ⟨k, v⟩ := p
    by_cases hk : k = "Name"
    · subst hk
      rw [unmarshalLoop_cons_name]
      exact ih _ h
    · by_cases hk2 : k = "Type"
      · subst hk2
        rw [unmarshalLoop_cons_type]
        exact ih _ h
      · rw [unmarshalLoop_cons_other d v rest hk hk2]
        exact ih _ rfl

/-- goFields_isOk states that unmarshalling the members of an object into
a string map succeeds exactly when every member value is a string or a
null. -/
theorem goFields_isOk (fs : List (String × JVal)) : ∀ acc : Smap,
    exceptOk (goFields fs acc) = fs.all (fun p => p.2.isStrOrNull) := by
  induction fs with
  | nil => intro acc; rfl
  | cons p rest ih =>
    intro acc
    obtain ⟨k, v⟩ := p
    cases v with
    | str s => simp [goFields, JVal.isStrOrNull, ih]
    | num n => simp [goFields, JVal.isStrOrNull, exceptOk]
    | bool b => simp [goFields, JVal.isStrOrNull, exceptOk]
    | null => simp [goFields, JVal.isStrOrNull, ih]
    | arr elems => simp [goFields, JVal.isStrOrNull, exceptOk]
    | obj fields => simp [goFields, JVal.isStrOrNull, exceptOk]

/-- goFields_WF states that unmarshalling object members into a canonical
map, starting from a canonical accumulator, yields a canonical map. -/
theorem goFields_WF (fs : List (String × JVal)) : ∀ (acc w : Smap), acc.WF →
    goFields fs acc = Except.ok w → w.WF := by
  induction fs with
  | nil =>
    intro acc w hacc h
    cases h
    exact hacc
  | cons p rest ih =>
    intro acc w hacc h
    obtain ⟨k, v⟩ := p
    cases v with
    | str s => exact ih _ w (Smap.WF_insert hacc k s) h
    | num n => exact absurd h (by simp [goFields])
    | bool b => exact absurd h (by simp [goFields])
    | null => exact ih _ w (Smap.WF_insert hacc k "") h
    | arr elems => exact absurd h (by simp [goFields])
    | obj fields => exact absurd h (by simp [goFields])

/-- goFields_get relates a lookup in the unmarshalled map to the member of
the object under the same key, for objects with distinct keys. -/
theorem goFields_get (fs : List (String × JVal)) : ∀ (acc w : Smap),
    fs.Pairwise (fun p q => p.1 ≠ q.1) →
    goFields fs acc = Except.ok w → ∀ s : String,
    Smap.get w s =
      (match jlookup fs s with
        | some (JVal.str t) => some t
        | some JVal.null => some ""
        | some _ => Smap.get acc s
        | none => Smap.get acc s) := by
  induction fs with
  | nil =>
    intro acc w _ h s
    cases h
    rfl
  | cons p rest ih =>
    intro acc w hw h s
    obtain ⟨k, v⟩ := p
    rw [List.pairwise_cons] at hw
    obtain ⟨hhead, htail⟩ := hw
    cases v with
    | str t =>
      rw [goFields] at h
      by_cases hs : k = s
      · subst hs
        rw [jlookup, if_pos rfl]
        have hrest : jlookup rest k = none :=
          jlookup_eq_none fun p hp => fun he => (hhead p hp) he.symm
        rw [ih _ w htail h k, hrest]
        exact Smap.get_insert_self acc k t
      · rw [jlookup, if_neg hs, ih _ w htail h s]
        have hacc : Smap.get (Smap.insert acc k t) s = Smap.get acc s :=
          Smap.get_insert_ne acc t fun he => hs he.symm
        cases hl : jlookup rest s with
        | none => simpa [hl] using hacc
        | some jv => cases jv <;> simp [hl, hacc]
    | null =>
      rw [goFields] at h
      by_cases hs : k = s
      · subst hs
        rw [jlookup, if_pos rfl]
        have hrest : jlookup rest k = none :=
          jlookup_eq_none fun p hp => fun he => (hhead p hp) he.symm
        rw [ih _ w htail h k, hrest]
        exact Smap.get_insert_self acc k ""
      · rw [jlookup, if_neg hs, ih _ w htail h s]
        have hacc : Smap.get (Smap.insert acc k "") s = Smap.get acc s :=
          Smap.get_insert_ne acc "" fun he => hs he.symm
        cases hl : jlookup rest s with
        | none => simpa [hl] using hacc
        | some jv => cases jv <;> simp [hl, hacc]
    | num n => exact absurd h (by simp [goFields])
    | bool b => exact absurd h (by simp [goFields])
    | arr elems => exact absurd h (by simp [goFields])
    | obj fields => exact absurd h (by simp [goFields])

/-- parseDestinationType_of_valid states that the decode switch is the
identity on the four enumeration strings and on the empty string. -/
theorem parseDestinationType_of_valid {t : String}
    (h : t = "HTTP" ∨ t = "RFC" ∨ t = "MAIL" ∨ t = "LDAP" ∨ t = "") :
    parseDestinationType t = t := by
  rcases h with h | h | h | h | h <;> subst h <;> rfl

/-- parseDestinationType_unknown states that the decode switch sends every
string outside the enumeration to the empty type. -/
theorem parseDestinationType_unknown {t : String}
    (h1 : t ≠ "HTTP") (h2 : t ≠ "RFC") (h3 : t ≠ "MAIL") (h4 : t ≠ "LDAP") :
    parseDestinationType t = "" := by
  rw [parseDestinationType, if_neg h1, if_neg h2, if_neg h3, if_neg h4]

/-- destinationExt derives equality of Destinations from equality of their
three fields. -/
theorem destinationExt {a b : Destination} (h1 : a.Name = b.Name)
    (h2 : a.type = b.type) (h3 : a.Properties = b.Properties) : a = b := by
  cases a
  cases b
  rw [Destination.mk.injEq]
  exact ⟨h1, h2, h3⟩

/-- C1 counterexample: the round trip is not the identity on every
Destination whose Properties has no "Name" or "Type" key: with the type
string "X", which is outside the enumeration, decoding the encoding
degrades the type to the empty string. -/
theorem c1_counterexample :
    Smap.get ([] : Smap) "Name" = none ∧ Smap.get ([] : Smap) "Type" = none ∧
    decodeWire (Destination.MarshalJSON
        { Name := "d1", type := "X", Properties := some [] }) ≠
      { Name := "d1", type := "X", Properties := some [] } := by
  refine ⟨rfl, rfl, ?_⟩
  decide

/-- C1 (amended): for every Destination whose Properties is a non-nil map
with no "Name" or "Type" key and whose type is one of the four
enumeration strings or empty, decoding the encoding gives the Destination
back. -/
theorem c1_round_trip_clean (d : Destination) (m : Smap)
    (hp : d.Properties = some m) (hwf : m.WF)
    (hn : Smap.get m "Name" = none) (ht : Smap.get m "Type" = none)
    (hty : d.type = "HTTP" ∨ d.type = "RFC" ∨ d.type = "MAIL" ∨ d.type = "LDAP" ∨
      d.type = "") :
    decodeWire (Destination.MarshalJSON d) = d := by
  have hpd : d.Properties.getD [] = m := by rw [hp]; rfl
  have hw_eq : Destination.MarshalJSON d =
      Smap.insert (Smap.insert m "Name" d.Name) "Type" d.type := by
    simp only [Destination.MarshalJSON, hpd]
  have hwfw : (Destination.MarshalJSON d).WF := by
    rw [hw_eq]
    exact Smap.WF_insert (Smap.WF_insert hwf "Name" d.Name) "Type" d.type
  have hdk := Smap.WF_keys_ne hwfw
  have hgname : Smap.get (Destination.MarshalJSON d) "Name" = some d.Name := by
    rw [hw_eq, Smap.get_insert_ne _ _ (by decide : ("Name" : String) ≠ "Type")]
    exact Smap.get_insert_self m "Name" d.Name
  have hgtype : Smap.get (Destination.MarshalJSON d) "Type" = some d.type := by
    rw [hw_eq]
    exact Smap.get_insert_self _ "Type" d.type
  have hgother : ∀ s, s ≠ "Name" → s ≠ "Type" →
      Smap.get (Destination.MarshalJSON d) s = Smap.get m s := by
    intro s h1 h2
    rw [hw_eq, Smap.get_insert_ne _ _ h2, Smap.get_insert_ne _ _ h1]
  refine destinationExt ?_ ?_ ?_
  · rw [decodeWire, unmarshalLoop_Name _ _ hdk, hgname]
    rfl
  · rw [decodeWire, unmarshalLoop_type _ _ hdk, hgtype]
    have hparse : parseDestinationType d.type = d.type := parseDestinationType_of_valid hty
    simp [hparse]
  · have hsome : (decodeWire (Destination.MarshalJSON d)).Properties.isSome = true := by
      rw [decodeWire]
      exact unmarshalLoop_props_isSome _ _ rfl
    obtain ⟨P, hP⟩ := Option.isSome_iff_exists.mp hsome
    have hPd : (decodeWire (Destination.MarshalJSON d)).Properties.getD [] = P := by
      rw [hP]
      rfl
    have hPwf : P.WF := by
      rw [← hPd, decodeWire]
      exact unmarshalLoop_props_WF _ _ (by simp [Smap.WF])
    have hPm : P = m := by
      refine Smap.ext_of_wf hPwf hwf ?_
      intro s
      by_cases hs1 : s = "Name"
      · subst hs1
        rw [← hPd, decodeWire, unmarshalLoop_props_reserved _ _ _ (Or.inl rfl), hn]
        rfl
      · by_cases hs2 : s = "Type"
        · subst hs2
          rw [← hPd, decodeWire, unmarshalLoop_props_reserved _ _ _ (Or.inr rfl), ht]
          rfl
        · rw [← hPd, decodeWire, unmarshalLoop_props_get _ _ hdk s hs1 hs2,
            hgother s hs1 hs2]
          cases hg : Smap.get m s with
          | some v => rfl
          | none => rfl
    rw [hP, hPm, hp]

/-- C2: encoding always stores the struct's Name and type under the
reserved wire keys, overwriting any property entries carried under those
keys. -/
theorem c2_reserved_key_override (d : Destination) (m : Smap)
    (hp : d.Properties = some m)
    (hn : (Smap.get m "Name").isSome = true) (ht : (Smap.get m "Type").isSome = true) :
    Smap.get (Destination.MarshalJSON d) "Name" = some d.Name ∧
    Smap.get (Destination.MarshalJSON d) "Type" = some d.type := by
  constructor
  · simp only [Destination.MarshalJSON]
    rw [Smap.get_insert_ne _ _ (by decide : ("Name" : String) ≠ "Type")]
    exact Smap.get_insert_self _ "Name" d.Name
  · simp only [Destination.MarshalJSON]
    exact Smap.get_insert_self _ "Type" d.type

/-- c2_witness instantiates c2_reserved_key_override at the spec's
example: properties carrying "Name" and "Type" entries "x" and "y", a
struct Name "real" and type HTTP. -/
theorem c2_witness :
    ((⟨"real", "HTTP", some [("Name", "x"), ("Type", "y")]⟩ : Destination).Properties =
      some [("Name", "x"), ("Type", "y")]) ∧
    (Smap.get [("Name", "x"), ("Type", "y")] "Name").isSome = true ∧
    (Smap.get [("Name", "x"), ("Type", "y")] "Type").isSome = true ∧
    (Smap.get (Destination.MarshalJSON ⟨"real", "HTTP", some [("Name", "x"), ("Type", "y")]⟩)
        "Name" = some "real" ∧
     Smap.get (Destination.MarshalJSON ⟨"real", "HTTP", some [("Name", "x"), ("Type", "y")]⟩)
        "Type" = some "HTTP") :=
  ⟨rfl, by decide, by decide,
    c2_reserved_key_override _ [("Name", "x"), ("Type", "y")] rfl (by decide) (by decide)⟩

/-- C3: evaluating the encoder model at a concrete input shows that the
caller's Properties map is mutated by MarshalJSON: the reserved entries
are stored into the caller-visible map, which the claim says stays
untouched. -/
theorem c3_marshal_mutates_caller :
    Destination.propertiesAfterMarshalJSON
        { Name := "real", type := "HTTP", Properties := some [("a", "b")] } =
      some [("Name", "real"), ("Type", "HTTP"), ("a", "b")] ∧
    Destination.propertiesAfterMarshalJSON
        { Name := "real", type := "HTTP", Properties := some [("a", "b")] } ≠
      some [("a", "b")] := by
  decide

/-- C4: decoding any flat string object whose "Type" member is outside the
enumeration succeeds, takes the Name from the "Name" member and leaves
the empty type. -/
theorem c4_unknown_type_tolerance (d0 : Destination) (fs : List (String × JVal))
    (nm ty : String)
    (hdk : fs.Pairwise (fun p q => p.1 ≠ q.1))
    (hflat : (JVal.obj fs).isFlatStringObj = true)
    (hn : jlookup fs "Name" = some (JVal.str nm))
    (ht : jlookup fs "Type" = some (JVal.str ty))
    (h1 : ty ≠ "HTTP") (h2 : ty ≠ "RFC") (h3 : ty ≠ "MAIL") (h4 : ty ≠ "LDAP") :
    ∃ d', Destination.UnmarshalJSON d0 (JVal.obj fs) = Except.ok d' ∧
      d'.Name = nm ∧ d'.type = "" := by
  have hok : exceptOk (goFields fs []) = true := by
    rw [goFields_isOk]
    simp only [JVal.isFlatStringObj] at hflat
    rw [List.all_eq_true] at hflat ⊢
    intro p hp
    have := hflat p hp
    cases hv : p.2 <;> rw [hv] at this <;> simp [JVal.isStrOrNull] at this ⊢
  obtain ⟨w, hw⟩ : ∃ w, goFields fs [] = Except.ok w := by
    cases hg : goFields fs [] with
    | ok w => exact ⟨w, rfl⟩
    | error e =>
      rw [hg] at hok
      exact absurd hok (by simp [exceptOk])
  have hgname : Smap.get w "Name" = some nm := by
    rw [goFields_get fs [] w hdk hw "Name", hn]
  have hgtype : Smap.get w "Type" = some ty := by
    rw [goFields_get fs [] w hdk hw "Type", ht]
  have hwWF : w.WF := goFields_WF fs [] w (by simp [Smap.WF]) hw
  have hwdk := Smap.WF_keys_ne hwWF
  refine ⟨unmarshalLoop { d0 with Properties := some [] } w, ?_, ?_, ?_⟩
  · simp only [Destination.UnmarshalJSON, goUnmarshalStringMap, hw]
  · rw [unmarshalLoop_Name _ w hwdk, hgname]
    rfl
  · rw [unmarshalLoop_type _ w hwdk, hgtype]
    simp [parseDestinationType_unknown h1 h2 h3 h4]

/-- c4_witness instantiates c4_unknown_type_tolerance at the spec's
example payload carrying the Name "d1" and the unknown type string
"UNKNOWN". -/
theorem c4_witness :
    ([(("Name" : String), JVal.str "d1"), ("Type", JVal.str "UNKNOWN")].Pairwise
      (fun p q => p.1 ≠ q.1)) ∧
    (JVal.obj [("Name", JVal.str "d1"), ("Type", JVal.str "UNKNOWN")]).isFlatStringObj = true ∧
    (∃ d', Destination.UnmarshalJSON ⟨"", "", none⟩
        (JVal.obj [("Name", JVal.str "d1"), ("Type", JVal.str "UNKNOWN")]) = Except.ok d' ∧
      d'.Name = "d1" ∧ d'.type = "") :=
  ⟨by decide, rfl,
    c4_unknown_type_tolerance ⟨"", "", none⟩ _ "d1" "UNKNOWN" (by decide) rfl rfl rfl
      (by decide) (by decide) (by decide) (by decide)⟩

/-- C5: encoding a Destination whose Properties map is empty yields the
wire object holding exactly the two reserved members. -/
theorem c5_empty_properties (d : Destination) (hp : d.Properties = some []) :
    Destination.MarshalJSON d = [("Name", d.Name), ("Type", d.type)] := by
  simp only [Destination.MarshalJSON, hp]
  rfl

/-- c5_witness instantiates c5_empty_properties at the spec's example
destination named "d1" of type HTTP. -/
theorem c5_witness :
    ((⟨"d1", "HTTP", some []⟩ : Destination).Properties = some []) ∧
    Destination.MarshalJSON ⟨"d1", "HTTP", some []⟩ = [("Name", "d1"), ("Type", "HTTP")] :=
  ⟨rfl, c5_empty_properties ⟨"d1", "HTTP", some []⟩ rfl⟩

/-- C6 counterexample: a payload that is not an object of string values
still decodes successfully, because encoding/json tolerates null values
when filling a string map, so the claimed equivalence fails. -/
theorem c6_counterexample :
    (JVal.obj [("a", JVal.null)]).isFlatStringObj = false ∧
    exceptOk (Destination.UnmarshalJSON ⟨"", "", none⟩ (JVal.obj [("a", JVal.null)])) = true :=
  ⟨rfl, rfl⟩

/-- C6 (amended): decoding fails exactly when the payload is neither a
bare null nor a JSON object whose member values are all strings or
nulls; in particular it succeeds on every flat object of string
values. -/
theorem c6_decode_error_iff (d0 : Destination) (payload : JVal) :
    exceptOk (Destination.UnmarshalJSON d0 payload) = decodeAccepted payload := by
  cases payload with
  | obj fields =>
    have hall := goFields_isOk fields []
    cases hg : goFields fields [] with
    | ok w =>
      rw [hg] at hall
      simp only [Destination.UnmarshalJSON, goUnmarshalStringMap, hg, decodeAccepted]
      rw [← hall]
      rfl
    | error e =>
      rw [hg] at hall
      simp only [Destination.UnmarshalJSON, goUnmarshalStringMap, hg, decodeAccepted]
      rw [← hall]
      rfl
  | null => rfl
  | str s => rfl
  | num n => rfl
  | bool b => rfl
  | arr elems => rfl

/-- C7 counterexample: a completed update with the unexpected status 300
and an error envelope body yields an error whose message is empty, not
the body's ErrorMessage, because resty only parses the error target for
statuses above 399; the status code is still carried. -/
theorem c7_counterexample :
    (300 ≠ 200) ∧
    UpdateSubaccountDestination (RestOutcome.completed
      ⟨300, JVal.obj [("ErrorMessage", JVal.str "x")]⟩) =
      UpdateOutcome.remoteFailed ⟨0⟩ ⟨"", 300⟩ ∧
    ErrorMessage.Error ⟨"", 300⟩ ≠ "x" := by
  refine ⟨by decide, ?_, by decide⟩
  rfl

/-- C7 (amended): a completed update whose status is not 200 and whose
body is the error envelope returns the error value carrying that status;
the message the Error method exposes is the remote one exactly when the
status is in the error family, above 399, and empty otherwise, because
resty only unmarshals the SetError target for such statuses. -/
theorem c7_status_to_error (s : Nat) (msg : String) (hs : s ≠ 200) :
    UpdateSubaccountDestination (RestOutcome.completed
      ⟨s, JVal.obj [("ErrorMessage", JVal.str msg)]⟩) =
      UpdateOutcome.remoteFailed ⟨0⟩ ⟨if 399 < s then msg else "", s⟩ ∧
    ErrorMessage.StatusCode ⟨if 399 < s then msg else "", s⟩ = s ∧
    ErrorMessage.Error ⟨if 399 < s then msg else "", s⟩ = (if 399 < s then msg else "") := by
  refine ⟨?_, rfl, rfl⟩
  have hA : unmarshalAffectedRecords (JVal.obj [("ErrorMessage", JVal.str msg)]) ⟨0⟩ =
      Except.ok ⟨0⟩ := rfl
  have hE : unmarshalErrorMessage (JVal.obj [("ErrorMessage", JVal.str msg)]) ⟨"", 0⟩ =
      Except.ok ⟨msg, 0⟩ := rfl
  by_cases h4 : 399 < s
  · rw [if_pos h4]
    have h2xx : ¬(199 < s ∧ s < 300) := by omega
    simp [UpdateSubaccountDestination, h2xx, h4, hs, hE]
  · rw [if_neg h4]
    simp [UpdateSubaccountDestination, hA, h4, hs, ite_self]

/-- c7_witness instantiates c7_status_to_error at the spec's example: a
404 with the body message "not found". -/
theorem c7_witness :
    (404 ≠ 200) ∧
    (UpdateSubaccountDestination (RestOutcome.completed
        ⟨404, JVal.obj [("ErrorMessage", JVal.str "not found")]⟩) =
        UpdateOutcome.remoteFailed ⟨0⟩ ⟨"not found", 404⟩ ∧
      ErrorMessage.StatusCode ⟨"not found", 404⟩ = 404 ∧
      ErrorMessage.Error ⟨"not found", 404⟩ = "not found") :=
  ⟨by decide, c7_status_to_error 404 "not found" (by decide)⟩

/-- C8: encoding a Destination whose Properties map is nil succeeds, is
the same as encoding it with an empty map, and yields the two-member wire
object. -/
theorem c8_nil_properties_marshal (d : Destination) (hp : d.Properties = none) :
    Destination.MarshalJSON d = [("Name", d.Name), ("Type", d.type)] ∧
    Destination.MarshalJSON d = Destination.MarshalJSON ⟨d.Name, d.type, some []⟩ := by
  constructor
  · simp only [Destination.MarshalJSON, hp]
    rfl
  · simp only [Destination.MarshalJSON, hp]
    rfl

/-- c8_witness instantiates c8_nil_properties_marshal at a destination
named "d1" of type HTTP carrying a nil map. -/
theorem c8_witness :
    ((⟨"d1", "HTTP", none⟩ : Destination).Properties = none) ∧
    (Destination.MarshalJSON ⟨"d1", "HTTP", none⟩ = [("Name", "d1"), ("Type", "HTTP")] ∧
     Destination.MarshalJSON ⟨"d1", "HTTP", none⟩ =
       Destination.MarshalJSON ⟨"d1", "HTTP", some []⟩) :=
  ⟨rfl, c8_nil_properties_marshal ⟨"d1", "HTTP", none⟩ rfl⟩

/-- C9: every successful decode leaves a Destination whose Properties map
is initialised, non-nil, and carries neither reserved key. -/
theorem c9_decode_invariants (d0 d' : Destination) (payload : JVal)
    (h : Destination.UnmarshalJSON d0 payload = Except.ok d') :
    d'.Properties.isSome = true ∧
    Smap.get (d'.Properties.getD []) "Name" = none ∧
    Smap.get (d'.Properties.getD []) "Type" = none := by
  cases hg : goUnmarshalStringMap payload with
  | error e =>
    simp [Destination.UnmarshalJSON, hg] at h
  | ok w =>
    simp only [Destination.UnmarshalJSON, hg] at h
    have hd : unmarshalLoop { d0 with Properties := some [] } w = d' := Except.ok.inj h
    subst hd
    refine ⟨?_, ?_, ?_⟩
    · exact unmarshalLoop_props_isSome _ w rfl
    · rw [unmarshalLoop_props_reserved _ w "Name" (Or.inl rfl)]
      rfl
    · rw [unmarshalLoop_props_reserved _ w "Type" (Or.inr rfl)]
      rfl

/-- c9_witness instantiates c9_decode_invariants at a wire object with one
custom member. -/
theorem c9_witness :
    Destination.UnmarshalJSON ⟨"", "", none⟩ (JVal.obj [("url", JVal.str "x")]) =
      Except.ok ⟨"", "", some [("url", "x")]⟩ ∧
    ((⟨"", "", some [("url", "x")]⟩ : Destination).Properties.isSome = true ∧
     Smap.get ((⟨"", "", some [("url", "x")]⟩ : Destination).Properties.getD []) "Name" = none ∧
     Smap.get ((⟨"", "", some [("url", "x")]⟩ : Destination).Properties.getD []) "Type" = none) :=
  ⟨rfl, c9_decode_invariants ⟨"", "", none⟩ ⟨"", "", some [("url", "x")]⟩
    (JVal.obj [("url", JVal.str "x")]) rfl⟩

/-- C10: encoding the decode of a wire map that carries a "Name" member
and a "Type" member whose value is one of the four enumeration strings
gives the wire map back. -/
theorem c10_wire_round_trip (w : Smap) (nm ty : String)
    (hwf : w.WF) (hn : Smap.get w "Name" = some nm) (ht : Smap.get w "Type" = some ty)
    (hty : ty = "HTTP" ∨ ty = "RFC" ∨ ty = "MAIL" ∨ ty = "LDAP") :
    Destination.MarshalJSON (decodeWire w) = w := by
  have hdk := Smap.WF_keys_ne hwf
  have hname : (decodeWire w).Name = nm := by
    rw [decodeWire, unmarshalLoop_Name _ w hdk, hn]
    rfl
  have htype : (decodeWire w).type = ty := by
    rw [decodeWire, unmarshalLoop_type _ w hdk, ht]
    have hparse : parseDestinationType ty = ty := parseDestinationType_of_valid (by tauto)
    simp [hparse]
  have hPwf : ((decodeWire w).Properties.getD []).WF := by
    rw [decodeWire]
    exact unmarshalLoop_props_WF _ w (by simp [Smap.WF])
  refine Smap.ext_of_wf ?_ hwf ?_
  · simp only [Destination.MarshalJSON]
    exact Smap.WF_insert (Smap.WF_insert hPwf "Name" _) "Type" _
  · intro s
    simp only [Destination.MarshalJSON, hname, htype]
    by_cases hs1 : s = "Type"
    · subst hs1
      rw [Smap.get_insert_self, ht]
    · by_cases hs2 : s = "Name"
      · subst hs2
        rw [Smap.get_insert_ne _ _ (by decide : ("Name" : String) ≠ "Type"),
          Smap.get_insert_self, hn]
      · rw [Smap.get_insert_ne _ _ hs1, Smap.get_insert_ne _ _ hs2, decodeWire,
          unmarshalLoop_props_get _ w hdk s hs2 hs1]
        cases hg : Smap.get w s with
        | some v => rfl
        | none => rfl

/-- c10_witness instantiates c10_wire_round_trip at the spec's find
scenario wire object carrying the name "db1", the type "RFC" and one
custom member. -/
theorem c10_witness :
    Smap.WF [("Name", "db1"), ("Type", "RFC"), ("url", "jdbc")] ∧
    Smap.get [("Name", "db1"), ("Type", "RFC"), ("url", "jdbc")] "Name" = some "db1" ∧
    Smap.get [("Name", "db1"), ("Type", "RFC"), ("url", "jdbc")] "Type" = some "RFC" ∧
    Destination.MarshalJSON (decodeWire [("Name", "db1"), ("Type", "RFC"), ("url", "jdbc")]) =
      [("Name", "db1"), ("Type", "RFC"), ("url", "jdbc")] :=
  ⟨by rw [Smap.WF]; decide, rfl, rfl,
    c10_wire_round_trip _ "db1" "RFC" (by rw [Smap.WF]; decide) rfl rfl (Or.inr (Or.inl rfl))⟩

/-- c1_witness instantiates c1_round_trip_clean at a destination of type
HTTP with one custom property. -/
theorem c1_witness :
    ((⟨"d1", "HTTP", some [("url", "x")]⟩ : Destination).Properties = some [("url", "x")]) ∧
    Smap.WF [("url", "x")] ∧
    Smap.get [("url", "x")] "Name" = none ∧
    Smap.get [("url", "x")] "Type" = none ∧
    decodeWire (Destination.MarshalJSON ⟨"d1", "HTTP", some [("url", "x")]⟩) =
      ⟨"d1", "HTTP", some [("url", "x")]⟩ :=
  ⟨rfl, by rw [Smap.WF]; decide, rfl, rfl,
    c1_round_trip_clean ⟨"d1", "HTTP", some [("url", "x")]⟩ [("url", "x")] rfl
      (by rw [Smap.WF]; decide) rfl rfl (Or.inl rfl)⟩
